import Mathlib

/-!
Shallow embedding of the MiniPow consensus core
(`src/consensus/minipow/src/lib.rs`) and proofs of its specified
properties.

Machine integers are modelled as `Nat` with explicit reduction modulo
`2 ^ 64` (for `u64` wraparound) and `2 ^ 32` (for the `u32` round
counter).  Byte strings (`pre_hash`, seals) are `List Nat`, where each
element stands for one byte.
-/

namespace MiniPow

/-- The modulus of 64-bit wraparound arithmetic, `2 ^ 64`. -/
def u64Mod : Nat := 2 ^ 64

/-- The modulus of the 32-bit round counter, `2 ^ 32`. -/
def u32Mod : Nat := 2 ^ 32

/-- `u64::MAX`, the largest 64-bit unsigned value. -/
def u64Max : Nat := 2 ^ 64 - 1

/-- The `k` little-endian base-256 digits of `n`.  For `k = 8` this is
`u64::to_le_bytes` (high bits of an out-of-range `n` are dropped, as the
Rust type system guarantees `n < 2 ^ 64`). -/
def natLeBytes : Nat → Nat → List Nat
  | 0, _ => []
  | k + 1, n => n % 256 :: natLeBytes k (n / 256)

/-- `u64::to_le_bytes`: the 8 little-endian bytes of a 64-bit value. -/
def toLeBytes (n : Nat) : List Nat := natLeBytes 8 n

/-- `u64::from_le_bytes`: assemble a value from little-endian bytes. -/
def fromLeBytes : List Nat → Nat
  | [] => 0
  | b :: bs => b + 256 * fromLeBytes bs

/-- `Nonce::to_seal`: `self.0.to_le_bytes().to_vec()`. -/
def Nonce.to_seal (n : Nat) : List Nat := toLeBytes n

/-- `Nonce::from_seal`: succeeds exactly when the seal is 8 bytes long,
reading them as a little-endian `u64`; otherwise `None`. -/
def Nonce.from_seal (s : List Nat) : Option Nat :=
  if s.length = 8 then some (fromLeBytes s) else none

/-- `u64::wrapping_add`. -/
def wrapAdd (a b : Nat) : Nat := (a + b) % u64Mod

/-- `checksum64`: fold `wrapping_add` over the bytes of `pre_hash`,
then over the 8 little-endian bytes of `nonce`, starting from 0. -/
def checksum64 (pre_hash : List Nat) (nonce : Nat) : Nat :=
  (toLeBytes nonce).foldl wrapAdd (pre_hash.foldl wrapAdd 0)

/-- `target64`: clamp a wide (256-bit) target into the 64-bit domain.
If the target exceeds `u64::MAX` saturate to `u64::MAX`, else take its
low 64 bits (`low_u64`). -/
def target64 (target : Nat) : Nat :=
  if u64Max < target then u64Max else target % u64Mod

/-- `PowAlgorithm::difficulty`: the fixed dev-chain difficulty
`U256::from(u64::MAX / 1024)`, ignoring the parent block id. -/
def difficulty (_parent : Nat) : Nat := u64Max / 1024

/-- `PowAlgorithm::verify`: decode the seal; on failure return `false`,
otherwise compare the work against the clamped target with strict
inequality. -/
def verify (pre_hash : List Nat) (s : List Nat) (target : Nat) : Bool :=
  match Nonce.from_seal s with
  | none => false
  | some n => decide (checksum64 pre_hash n < target64 target)

/-- The body of `mine`'s `while` loop: starting from `nonce`, try at most
`k` candidates (the loop runs while `nonce < limit`, and `k` stands for
`limit - nonce`); return the first candidate whose checksum beats `t`.
The successor nonce is formed with `wrapping_add(1)`, hence the
reduction modulo `2 ^ 64`. -/
def mineScan (pre_hash : List Nat) (t : Nat) : Nat → Nat → Option Nat
  | _, 0 => none
  | nonce, k + 1 =>
    if checksum64 pre_hash nonce < t then some nonce
    else mineScan pre_hash t ((nonce + 1) % u64Mod) k

/-- The number of candidates each `mine` call tries: `1u64 << 20`. -/
def window : Nat := 2 ^ 20

/-- `PowAlgorithm::mine`: search the round's window
`[round << 32, (round << 32) + 2 ^ 20)` for a nonce whose checksum is
below the clamped target, encoding a hit as a seal.  The `u32` round is
reduced modulo `2 ^ 32` before the shift. -/
def mine (pre_hash : List Nat) (target : Nat) (round : Nat) : Option (List Nat) :=
  (mineScan pre_hash (target64 target) ((round % u32Mod) * u32Mod) window).map Nonce.to_seal

/-- Cost-instrumented copy of the `mine` loop: same result in the first
component, number of `checksum64` evaluations performed in the second. -/
def mineScanCount (pre_hash : List Nat) (t : Nat) : Nat → Nat → Option Nat × Nat
  | _, 0 => (none, 0)
  | nonce, k + 1 =>
    if checksum64 pre_hash nonce < t then (some nonce, 1)
    else
      let r := mineScanCount pre_hash t ((nonce + 1) % u64Mod) k
      (r.1, r.2 + 1)

/-- The list of candidate nonces a given round's `mine` call scans, in
the order the loop visits them. -/
def mineWindow (round : Nat) : List Nat :=
  List.range' ((round % u32Mod) * u32Mod) window

/-- A 32-byte all-zero pre-hash, used to instantiate theorems. -/
def zeros32 : List Nat := List.replicate 32 0

/-- Proof device: the `mine` loop without the (never-firing) modulus on
the successor nonce; related to `mineScan` by `mineScan_eq_pure`. -/
def mineScanP (pre_hash : List Nat) (t : Nat) : Nat → Nat → Option Nat
  | _, 0 => none
  | nonce, k + 1 =>
    if checksum64 pre_hash nonce < t then some nonce
    else mineScanP pre_hash t (nonce + 1) k

/-! ### Helper lemmas -/

lemma foldl_wrapAdd (l : List Nat) : ∀ a : Nat,
    l.foldl wrapAdd (a % u64Mod) = (a + l.sum) % u64Mod := by
  induction l with
  | nil => intro a; simp
  | cons b bs ih =>
    intro a
    have h1 : wrapAdd (a % u64Mod) b = (a + b) % u64Mod := by
      show (a % u64Mod + b) % u64Mod = (a + b) % u64Mod
      exact Nat.mod_add_mod a u64Mod b
    calc (b :: bs).foldl wrapAdd (a % u64Mod)
        = bs.foldl wrapAdd ((a + b) % u64Mod) := by rw [List.foldl_cons, h1]
      _ = (a + b + bs.sum) % u64Mod := ih (a + b)
      _ = (a + (b :: bs).sum) % u64Mod := by rw [List.sum_cons, Nat.add_assoc]

lemma checksum64_eq_sum (h : List Nat) (n : Nat) :
    checksum64 h n = (h.sum + (toLeBytes n).sum) % u64Mod := by
  unfold checksum64
  have h0 : h.foldl wrapAdd 0 = h.sum % u64Mod := by
    have := foldl_wrapAdd h 0
    simpa using this
  rw [h0, ← Nat.zero_add (h.sum % u64Mod), ← Nat.zero_mod u64Mod]
  rw [Nat.zero_mod, Nat.zero_add]
  have := foldl_wrapAdd (toLeBytes n) h.sum
  simpa using this

lemma checksum64_lt (h : List Nat) (n : Nat) : checksum64 h n < u64Mod := by
  rw [checksum64_eq_sum]
  exact Nat.mod_lt _ (by norm_num [u64Mod])

lemma natLeBytes_length : ∀ (k n : Nat), (natLeBytes k n).length = k := by
  intro k
  induction k with
  | zero => intro n; rfl
  | succ k ih => intro n; simp [natLeBytes, ih]

lemma natLeBytes_lt : ∀ (k n : Nat), ∀ b ∈ natLeBytes k n, b < 256 := by
  intro k
  induction k with
  | zero => intro n b hb; simp [natLeBytes] at hb
  | succ k ih =>
    intro n b hb
    simp only [natLeBytes, List.mem_cons] at hb
    rcases hb with hb | hb
    · subst hb; exact Nat.mod_lt _ (by norm_num)
    · exact ih (n / 256) b hb

lemma fromLeBytes_natLeBytes : ∀ (k n : Nat),
    fromLeBytes (natLeBytes k n) = n % 256 ^ k := by
  intro k
  induction k with
  | zero => intro n; simp [natLeBytes, fromLeBytes, Nat.mod_one]
  | succ k ih =>
    intro n
    simp only [natLeBytes, fromLeBytes, ih (n / 256)]
    rw [pow_succ']
    exact (Nat.mod_mul).symm

lemma from_seal_to_seal (n : Nat) (hn : n < u64Mod) :
    Nonce.from_seal (Nonce.to_seal n) = some n := by
  unfold Nonce.from_seal Nonce.to_seal toLeBytes
  rw [if_pos (natLeBytes_length 8 n), fromLeBytes_natLeBytes 8 n]
  congr 1
  have : (256 : Nat) ^ 8 = u64Mod := by norm_num [u64Mod]
  rw [this]
  exact Nat.mod_eq_of_lt hn

lemma base_window_le (r : Nat) : (r % u32Mod) * u32Mod + window ≤ u64Mod := by
  have h1 : r % u32Mod < u32Mod := Nat.mod_lt r (by norm_num [u32Mod])
  have h2 : u32Mod = 4294967296 := by norm_num [u32Mod]
  have h3 : u64Mod = 18446744073709551616 := by norm_num [u64Mod]
  have h4 : window = 1048576 := by norm_num [window]
  rw [h2, h3, h4]
  rw [h2] at h1
  omega

lemma mineScan_eq_pure (h : List Nat) (t : Nat) : ∀ (k nonce : Nat),
    nonce + k ≤ u64Mod → mineScan h t nonce k = mineScanP h t nonce k := by
  intro k
  induction k with
  | zero => intro nonce _; rfl
  | succ k ih =>
    intro nonce hle
    simp only [mineScan, mineScanP]
    split
    · rfl
    · cases k with
      | zero => rfl
      | succ k2 =>
        have h1 : (nonce + 1) % u64Mod = nonce + 1 := Nat.mod_eq_of_lt (by omega)
        rw [h1]
        exact ih (nonce + 1) (by omega)

lemma mineScanP_eq_none_iff (h : List Nat) (t : Nat) : ∀ (k nonce : Nat),
    mineScanP h t nonce k = none ↔
      ∀ n, nonce ≤ n → n < nonce + k → ¬ checksum64 h n < t := by
  intro k
  induction k with
  | zero =>
    intro nonce
    constructor
    · intro _ n h1 h2; omega
    · intro _; rfl
  | succ k ih =>
    intro nonce
    simp only [mineScanP]
    split
    · constructor
      · intro hc; exact absurd hc (by simp)
      · intro hall
        exact absurd (by assumption) (hall nonce (Nat.le_refl nonce) (by omega))
    · rw [ih (nonce + 1)]
      constructor
      · intro hall n h1 h2
        rcases Nat.eq_or_lt_of_le h1 with rfl | hlt
        · assumption
        · exact hall n hlt (by omega)
      · intro hall n h1 h2
        exact hall n (by omega) (by omega)

lemma mineScanP_some_inv (h : List Nat) (t : Nat) : ∀ (k nonce n : Nat),
    mineScanP h t nonce k = some n →
    nonce ≤ n ∧ n < nonce + k ∧ checksum64 h n < t := by
  intro k
  induction k with
  | zero => intro nonce n hc; exact absurd hc (by simp [mineScanP])
  | succ k ih =>
    intro nonce n hc
    simp only [mineScanP] at hc
    split at hc
    · cases hc
      refine ⟨Nat.le_refl _, by omega, by assumption⟩
    · obtain ⟨h1, h2, h3⟩ := ih (nonce + 1) n hc
      exact ⟨by omega, by omega, h3⟩

lemma mineScanP_some_of_least (h : List Nat) (t : Nat) : ∀ (k nonce n : Nat),
    nonce ≤ n → n < nonce + k → checksum64 h n < t →
    (∀ m, nonce ≤ m → m < n → ¬ checksum64 h m < t) →
    mineScanP h t nonce k = some n := by
  intro k
  induction k with
  | zero => intro nonce n h1 h2; omega
  | succ k ih =>
    intro nonce n h1 h2 h3 h4
    rcases Nat.eq_or_lt_of_le h1 with rfl | hlt
    · simp [mineScanP, h3]
    · have hmiss : ¬ checksum64 h nonce < t := h4 nonce (Nat.le_refl _) hlt
      simp only [mineScanP, if_neg hmiss]
      exact ih (nonce + 1) n hlt (by omega) h3 (fun m hm1 hm2 => h4 m (by omega) hm2)

lemma mineScanP_eq_find (h : List Nat) (t : Nat) : ∀ (k nonce : Nat),
    mineScanP h t nonce k =
      (List.range' nonce k).find? fun n => decide (checksum64 h n < t) := by
  intro k
  induction k with
  | zero => intro nonce; rfl
  | succ k ih =>
    intro nonce
    rw [List.range'_succ nonce k 1]
    by_cases hc : checksum64 h nonce < t
    · rw [List.find?_cons_of_pos _ (by simpa using hc)]
      simp [mineScanP, hc]
    · rw [List.find?_cons_of_neg _ (by simpa using hc)]
      simp only [mineScanP, if_neg hc]
      exact ih (nonce + 1)

lemma mineScanCount_fst (h : List Nat) (t : Nat) : ∀ (k nonce : Nat),
    (mineScanCount h t nonce k).1 = mineScan h t nonce k := by
  intro k
  induction k with
  | zero => intro nonce; rfl
  | succ k ih =>
    intro nonce
    simp only [mineScanCount, mineScan]
    split
    · rfl
    · exact ih ((nonce + 1) % u64Mod)

lemma mineScanCount_le (h : List Nat) (t : Nat) : ∀ (k nonce : Nat),
    (mineScanCount h t nonce k).2 ≤ k := by
  intro k
  induction k with
  | zero => intro nonce; exact Nat.le_refl 0
  | succ k ih =>
    intro nonce
    simp only [mineScanCount]
    split
    · omega
    · have := ih ((nonce + 1) % u64Mod)
      simp only []
      omega

lemma mineScan_succ (h : List Nat) (t nonce k : Nat) :
    mineScan h t nonce (k + 1) =
      if checksum64 h nonce < t then some nonce
      else mineScan h t ((nonce + 1) % u64Mod) k := rfl

lemma sum_le_255_mul (l : List Nat) (hb : ∀ b ∈ l, b < 256) :
    l.sum ≤ l.length * 255 := by
  have := List.sum_le_card_nsmul l 255 (fun x hx => Nat.lt_succ_iff.mp (hb x hx))
  simpa [smul_eq_mul] using this

/-! ### Claim theorems -/

/-- C1: for every pre-hash, difficulty target and round, if `mine`
returns a seal then `verify` accepts that seal against the same pre-hash
and target. -/
theorem mine_verify_consistent (h : List Nat) (t r : Nat) (s : List Nat)
    (hm : mine h t r = some s) : verify h s t = true := by
  unfold mine at hm
  rw [Option.map_eq_some'] at hm
  obtain ⟨n, hscan, rfl⟩ := hm
  rw [mineScan_eq_pure h (target64 t) window ((r % u32Mod) * u32Mod)
    (base_window_le r)] at hscan
  obtain ⟨hge, hlt, hhit⟩ :=
    mineScanP_some_inv h (target64 t) window ((r % u32Mod) * u32Mod) n hscan
  have hn : n < u64Mod := by
    have := base_window_le r
    omega
  simp [verify, from_seal_to_seal n hn, hhit]

/-- Witness for C1: the all-zero pre-hash with target `10 ^ 9` at
round 0. -/
theorem mine_verify_consistent_witness :
    verify zeros32 (Nonce.to_seal 0) 1000000000 = true :=
  mine_verify_consistent zeros32 1000000000 0 (Nonce.to_seal 0) (by decide)

/-- C2: `mine` searches exactly the window
`[r * 2 ^ 32, r * 2 ^ 32 + 2 ^ 20)` in increasing order: it returns
`none` iff no nonce there beats the clamped target, and it returns the
encoded seal of the smallest nonce in the window that does. -/
theorem mine_first_hit_in_window (h : List Nat) (t r : Nat) (hr : r < u32Mod) :
    (mine h t r = none ↔
      ∀ n, r * u32Mod ≤ n → n < r * u32Mod + window →
        ¬ checksum64 h n < target64 t)
    ∧ ∀ n, r * u32Mod ≤ n → n < r * u32Mod + window →
        checksum64 h n < target64 t →
        (∀ m, r * u32Mod ≤ m → m < n → ¬ checksum64 h m < target64 t) →
        mine h t r = some (Nonce.to_seal n) := by
  have hmod : r % u32Mod = r := Nat.mod_eq_of_lt hr
  have hb := base_window_le r
  rw [hmod] at hb
  have hpure : mine h t r =
      (mineScanP h (target64 t) (r * u32Mod) window).map Nonce.to_seal := by
    unfold mine
    rw [hmod, mineScan_eq_pure h (target64 t) window (r * u32Mod) hb]
  constructor
  · rw [hpure, Option.map_eq_none']
    exact mineScanP_eq_none_iff h (target64 t) window (r * u32Mod)
  · intro n h1 h2 h3 h4
    rw [hpure,
      mineScanP_some_of_least h (target64 t) window (r * u32Mod) n h1 h2 h3 h4]
    rfl

/-- Witness for C2: at the all-zero pre-hash with target `10 ^ 9`,
round 0's smallest passing nonce is 0 and `mine` returns its seal. -/
theorem mine_first_hit_in_window_witness :
    mine zeros32 1000000000 0 = some (Nonce.to_seal 0) :=
  (mine_first_hit_in_window zeros32 1000000000 0 (by norm_num [u32Mod])).2 0
    (Nat.le_refl 0) (by norm_num [window]) (by decide)
    (fun m _ hm => absurd hm (Nat.not_lt_zero m))

/-- C3: `verify` is total: it returns `false` whenever the seal fails to
decode (in particular for every length other than 8), and on a decoded
nonce it returns `true` exactly when the work is strictly below the
clamped target. -/
theorem verify_total_spec (h s : List Nat) (d : Nat) :
    (Nonce.from_seal s = none → verify h s d = false)
    ∧ (s.length ≠ 8 → verify h s d = false)
    ∧ ∀ n, Nonce.from_seal s = some n →
        (verify h s d = true ↔ checksum64 h n < target64 d) := by
  refine ⟨fun hnone => by simp [verify, hnone], fun hlen => ?_,
    fun n hsome => by simp [verify, hsome]⟩
  have hnone : Nonce.from_seal s = none := by simp [Nonce.from_seal, hlen]
  simp [verify, hnone]

/-- Witness for C3: the empty seal is rejected; the decoded nonce 0 with
work 0 is accepted against target 7. -/
theorem verify_total_spec_witness :
    verify zeros32 [] 5 = false ∧ verify zeros32 (Nonce.to_seal 0) 7 = true :=
  ⟨(verify_total_spec zeros32 [] 5).2.1 (by decide),
   ((verify_total_spec zeros32 (Nonce.to_seal 0) 7).2.2 0 (by decide)).mpr
     (by decide)⟩

/-- C4: the work value equals the sum of every pre-hash byte followed by
every byte of the nonce's 8-byte little-endian representation, reduced
modulo `2 ^ 64`; determinism is intrinsic, as `checksum64` is a pure
function of its two arguments. -/
theorem checksum64_is_byte_sum (h : List Nat) (n : Nat) :
    checksum64 h n = (h.sum + (toLeBytes n).sum) % u64Mod
    ∧ (toLeBytes n).length = 8 :=
  ⟨checksum64_eq_sum h n, natLeBytes_length 8 n⟩

/-- C5: the threshold conversion is the identity on difficulties that
fit in 64 bits and saturates to `u64::MAX` beyond. -/
theorem target64_clamp (d : Nat) (_hd : d < 2 ^ 256) :
    (d ≤ u64Max → target64 d = d) ∧ (u64Max < d → target64 d = u64Max) := by
  constructor
  · intro hle
    have h1 : ¬ u64Max < d := Nat.not_lt.mpr hle
    have h2 : d < u64Mod := by
      have h3 : u64Max < u64Mod := by norm_num [u64Max, u64Mod]
      omega
    simp [target64, h1, Nat.mod_eq_of_lt h2]
  · intro hlt
    simp [target64, hlt]

/-- Witness for C5: identity below the 64-bit boundary; clamped at
`2 ^ 64` and `2 ^ 128`. -/
theorem target64_clamp_witness :
    target64 12345 = 12345 ∧ target64 (2 ^ 64) = u64Max
    ∧ target64 (2 ^ 128) = u64Max :=
  ⟨(target64_clamp 12345 (by norm_num)).1 (by norm_num [u64Max]),
   (target64_clamp (2 ^ 64) (by norm_num)).2 (by norm_num [u64Max]),
   (target64_clamp (2 ^ 128) (by norm_num)).2 (by norm_num [u64Max])⟩

/-- C6: the seal codec round-trips every representable (64-bit) nonce. -/
theorem seal_roundtrip (n : Nat) (hn : n < u64Mod) :
    Nonce.from_seal (Nonce.to_seal n) = some n :=
  from_seal_to_seal n hn

/-- Witness for C6: round-trip at 0 and at the maximum nonce. -/
theorem seal_roundtrip_witness :
    Nonce.from_seal (Nonce.to_seal 0) = some 0
    ∧ Nonce.from_seal (Nonce.to_seal u64Max) = some u64Max :=
  ⟨seal_roundtrip 0 (by norm_num [u64Mod]),
   seal_roundtrip u64Max (by norm_num [u64Max, u64Mod])⟩

/-- C7 counterexample: the claim's coverage part fails.  Nonce `2 ^ 20`
lies strictly between members of the round-0 and round-1 windows yet
belongs to neither, so the two windows do not cover a contiguous range
of nonces: between them sits a gap of `2 ^ 32 - 2 ^ 20` nonces. -/
theorem mine_windows_not_contiguous :
    (0 : Nat) ∈ mineWindow 0 ∧ (2 ^ 32 : Nat) ∈ mineWindow 1
    ∧ (0 : Nat) < 2 ^ 20 ∧ (2 ^ 20 : Nat) < 2 ^ 32
    ∧ ¬ ((2 ^ 20 : Nat) ∈ mineWindow 0 ∨ (2 ^ 20 : Nat) ∈ mineWindow 1) := by
  simp only [mineWindow, List.mem_range'_1, u32Mod, window]
  norm_num

/-- C7 (amended): the candidate set of `mine` at round `r` is exactly
the interval `[r * 2 ^ 32, r * 2 ^ 32 + 2 ^ 20)` of `2 ^ 20` distinct
nonces, and the windows of rounds `r` and `r + 1` never intersect — but
they are separated by a gap, not contiguous. -/
theorem mine_window_interval_disjoint (h : List Nat) (t r : Nat)
    (hr : r + 1 < u32Mod) :
    mine h t r =
      ((mineWindow r).find? fun n =>
        decide (checksum64 h n < target64 t)).map Nonce.to_seal
    ∧ (∀ n, n ∈ mineWindow r ↔ r * u32Mod ≤ n ∧ n < r * u32Mod + window)
    ∧ (mineWindow r).length = window
    ∧ (mineWindow r).Nodup
    ∧ ∀ n, n ∈ mineWindow r → n ∈ mineWindow (r + 1) → False := by
  have hmod : r % u32Mod = r := Nat.mod_eq_of_lt (by omega)
  have hmod1 : (r + 1) % u32Mod = r + 1 := Nat.mod_eq_of_lt hr
  refine ⟨?_, ?_, ?_, ?_, ?_⟩
  · unfold mine mineWindow
    rw [mineScan_eq_pure h (target64 t) window ((r % u32Mod) * u32Mod)
      (base_window_le r), mineScanP_eq_find]
  · intro n
    rw [mineWindow, hmod, List.mem_range'_1]
  · simp [mineWindow]
  · exact List.nodup_range' _ _
  · intro n hn1 hn2
    rw [mineWindow, hmod, List.mem_range'_1] at hn1
    rw [mineWindow, hmod1, List.mem_range'_1] at hn2
    have e32 : u32Mod = 4294967296 := by norm_num [u32Mod]
    have ew : window = 1048576 := by norm_num [window]
    rw [e32, ew] at hn1 hn2
    omega

/-- Witness for C7 (amended): the round-0 window holds `2 ^ 20`
candidates. -/
theorem mine_window_interval_disjoint_witness :
    (mineWindow 0).length = window :=
  (mine_window_interval_disjoint zeros32 0 0 (by norm_num [u32Mod])).2.2.1

/-- C8: the difficulty policy returns the constant
`floor((2 ^ 64 - 1) / 1024)` whatever the parent block is. -/
theorem difficulty_constant (parent : Nat) :
    difficulty parent = (2 ^ 64 - 1) / 1024 := rfl

/-- C9: `mine` is a bounded, self-terminating search — its loop, run
with a cost counter, gives the same answer while performing at most
`2 ^ 20` `checksum64` evaluations. -/
theorem mine_bounded_work (h : List Nat) (t r : Nat) :
    mine h t r =
      ((mineScanCount h (target64 t) ((r % u32Mod) * u32Mod) window).1).map
        Nonce.to_seal
    ∧ (mineScanCount h (target64 t) ((r % u32Mod) * u32Mod) window).2
        ≤ window := by
  constructor
  · unfold mine
    rw [mineScanCount_fst]
  · exact mineScanCount_le h (target64 t) window ((r % u32Mod) * u32Mod)

/-- C10: with a 32-byte pre-hash the work value never exceeds
`(32 + 8) * 255 = 10200` (so the wraparound addition never wraps), and
under the fixed dev difficulty every round succeeds immediately on its
window's first candidate `r * 2 ^ 32`. -/
theorem small_checksum_mine_first (h : List Nat) (hlen : h.length = 32)
    (hb : ∀ b ∈ h, b < 256) (parent r : Nat) (hr : r < u32Mod) :
    (∀ n, checksum64 h n ≤ 10200)
    ∧ mine h (difficulty parent) r = some (Nonce.to_seal (r * u32Mod)) := by
  have hcs : ∀ n, checksum64 h n ≤ 10200 := by
    intro n
    rw [checksum64_eq_sum]
    have hs1 : h.sum ≤ 8160 := by
      have h5 := sum_le_255_mul h hb
      rw [hlen] at h5
      omega
    have hs2 : (toLeBytes n).sum ≤ 2040 := by
      have h5 := sum_le_255_mul (toLeBytes n) (natLeBytes_lt 8 n)
      have h6 : (toLeBytes n).length = 8 := natLeBytes_length 8 n
      rw [h6] at h5
      omega
    have hm : u64Mod = 18446744073709551616 := by norm_num [u64Mod]
    have hlt : h.sum + (toLeBytes n).sum < u64Mod := by omega
    rw [Nat.mod_eq_of_lt hlt]
    omega
  have hmod : r % u32Mod = r := Nat.mod_eq_of_lt hr
  have ht : target64 (difficulty parent) = 18014398509481983 := by
    show target64 (u64Max / 1024) = 18014398509481983
    decide
  have hhit : checksum64 h (r * u32Mod) < target64 (difficulty parent) := by
    rw [ht]
    have := hcs (r * u32Mod)
    omega
  refine ⟨hcs, ?_⟩
  unfold mine
  rw [hmod]
  have hw : window = 1048575 + 1 := by norm_num [window]
  rw [hw, mineScan_succ, if_pos hhit]
  rfl

/-- Witness for C10: at the all-zero pre-hash, round 0 mines its first
candidate nonce 0 at once. -/
theorem small_checksum_mine_first_witness :
    checksum64 zeros32 5 ≤ 10200
    ∧ mine zeros32 (difficulty 0) 0 = some (Nonce.to_seal 0) := by
  have h := small_checksum_mine_first zeros32 (by decide) (by decide) 0 0
    (by norm_num [u32Mod])
  have h2 := h.2
  rw [Nat.zero_mul] at h2
  exact ⟨h.1 5, h2⟩

end MiniPow
